import Mathlib

/-!
Verification of the session-scoped job-orchestration core of the
`youtube-cd-maker` server (`server.js`) against its design document.

JavaScript values are shallowly embedded: JS numbers become rationals
(`ℚ`), absent/`undefined` fields become `Option`, JS `Map`s become
association lists that preserve insertion order, and wall-clock time is
passed explicitly as an integer of milliseconds.  Handlers that interact
with the filesystem or with subprocesses take the outcomes of those
external interactions as explicit parameters.
-/

namespace CdMaker

/-! ## Format descriptors (`server.js`, metadata / `chooseBestFormat`) -/

/-- A raw format descriptor as it arrives in the extractor's JSON
metadata.  `none` models an absent / `undefined` field. -/
structure Format where
  format_id : String
  acodec : Option String
  vcodec : Option String
  abr : Option ℚ
  tbr : Option ℚ
  asr : Option ℚ
  deriving Repr, DecidableEq

/-- A format descriptor after `chooseBestFormat`'s `norm` arrow function:
codec strings lower-cased and defaulted to `""`, and `abr` synthesized
from a rounded `tbr` when absent. -/
structure NFormat where
  format_id : String
  acodec : String
  vcodec : String
  abr : Option ℚ
  tbr : Option ℚ
  asr : Option ℚ
  deriving Repr, DecidableEq

/-- JS `Math.round`: round half toward positive infinity. -/
def jsRound (x : ℚ) : ℚ := ((x + 1/2).floor : ℤ)

/-- JS `String.prototype.toLowerCase` on the codec strings (which are
ASCII), written over the character list so that it evaluates by
definitional unfolding. -/
def jsToLower (s : String) : String := ⟨s.data.map Char.toLower⟩

/-- Truthiness test `f && f.acodec && f.acodec !== "none"` used by both
`chooseBestFormat`'s first filter and the `/api/probe` format mapping:
the raw (not yet lower-cased) audio codec is a non-empty string other
than `"none"`. -/
def acodecRealRaw (f : Format) : Bool :=
  match f.acodec with
  | some a => a ≠ "" && a ≠ "none"
  | none => false

/-- The `norm` arrow function inside `chooseBestFormat`:
`abr: f.abr ?? (f.tbr ? Math.round(f.tbr) : undefined)`,
`asr` left numeric (the string-`parseInt` branch never fires for numeric
JSON), and both codec strings defaulted with `|| ""` and lower-cased. -/
def normFormat (f : Format) : NFormat :=
  { format_id := f.format_id
    acodec := jsToLower (f.acodec.getD "")
    vcodec := jsToLower (f.vcodec.getD "")
    abr :=
      match f.abr with
      | some a => some a
      | none =>
        match f.tbr with
        | some t => if t ≠ 0 then some (jsRound t) else none
        | none => none
    tbr := f.tbr
    asr := f.asr }

/-- The sort key of the `byBitrate` comparator:
`(b.abr || 0) - (a.abr || 0) || (b.tbr || 0) - (a.tbr || 0)` orders
descending by `abr` and breaks ties by descending `tbr`. -/
def bitrateKey (f : NFormat) : ℚ × ℚ := (f.abr.getD 0, f.tbr.getD 0)

/-- Strict "better bitrate" test for the fold implementing
`arr.sort(byBitrate)[0]`. -/
def keyGtB (a b : NFormat) : Bool :=
  (b.abr.getD 0 < a.abr.getD 0) ||
    ((a.abr.getD 0 == b.abr.getD 0) && (b.tbr.getD 0 < a.tbr.getD 0))

/-- The head of `arr.sort(byBitrate)`: JS `Array.prototype.sort` is
stable, so the head of the sorted array is the first element attaining
the lexicographically greatest `(abr, tbr)` key. -/
def pickTop : List NFormat → Option NFormat
  | [] => none
  | f :: fs => some (fs.foldl (fun best g => if keyGtB g best then g else best) f)

/-- Substring matcher used for codec-family tests: `pat` matches at the
head of `s`. -/
def charsMatchHead : List Char → List Char → Bool
  | [], _ => true
  | _ :: _, [] => false
  | p :: ps, c :: cs => p == c && charsMatchHead ps cs

/-- Substring matcher used for codec-family tests: `pat` occurs
contiguously somewhere in `s` (JS `String.prototype.includes`). -/
def charsContain (pat : List Char) : List Char → Bool
  | [] => charsMatchHead pat []
  | c :: rest => charsMatchHead pat (c :: rest) || charsContain pat rest

/-- JS `s.includes(pat)`. -/
def strContains (s pat : String) : Bool := charsContain pat.data s.data

/-- Codec-family test `f.acodec.includes("opus")`. -/
def isOpus (f : NFormat) : Bool := strContains f.acodec "opus"

/-- Codec-family test
`f.acodec.includes("aac") || f.acodec.includes("mp4a")`. -/
def isAac (f : NFormat) : Bool :=
  strContains f.acodec "aac" || strContains f.acodec "mp4a"

/-- `chooseBestFormat(formatsRaw)` from `server.js`: keep entries with a
real audio codec, normalize, restrict to audio-only (`vcodec === "none"`)
entries with sample rate at least 44100, then pick the top entry of the
opus tier, else of the aac/mp4a tier, else of the whole restricted tier,
else `null`. -/
def chooseBestFormat (formatsRaw : List Format) : Option NFormat :=
  let all := (formatsRaw.filter acodecRealRaw).map normFormat
  let audioOnly := all.filter (fun f => f.vcodec == "none")
  let hiAudioOnly := audioOnly.filter (fun f => 44100 ≤ f.asr.getD 0)
  match pickTop (hiAudioOnly.filter isOpus) with
  | some f => some f
  | none =>
    match pickTop (hiAudioOnly.filter isAac) with
    | some f => some f
    | none => pickTop hiAudioOnly

/-- Qualification predicate implied by `chooseBestFormat`'s filters: a
raw descriptor survives into the `hiAudioOnly` tier iff it has a real
audio codec, an audio-only video-codec marker, and sample rate at least
44100. -/
def qualifiesHiAudioOnly (f : Format) : Bool :=
  acodecRealRaw f && ((normFormat f).vcodec == "none")
    && (44100 ≤ (normFormat f).asr.getD 0)

/-- Ordering induced by the `byBitrate` comparator: `x` sorts no earlier
than `b` (descending average bitrate, then descending total bitrate). -/
def bitrateLE (x b : NFormat) : Prop :=
  x.abr.getD 0 < b.abr.getD 0 ∨
    (x.abr.getD 0 = b.abr.getD 0 ∧ x.tbr.getD 0 ≤ b.tbr.getD 0)

lemma bitrateLE_refl (x : NFormat) : bitrateLE x x := Or.inr ⟨rfl, le_refl _⟩

lemma bitrateLE_trans {a b c : NFormat} (h1 : bitrateLE a b) (h2 : bitrateLE b c) :
    bitrateLE a c := by
  rcases h1 with h1 | ⟨h1, h1t⟩ <;> rcases h2 with h2 | ⟨h2, h2t⟩
  · exact Or.inl (h1.trans h2)
  · exact Or.inl (h2 ▸ h1)
  · exact Or.inl (h1 ▸ h2)
  · exact Or.inr ⟨h1.trans h2, h1t.trans h2t⟩

lemma keyGtB_eq_false_iff {g b : NFormat} : keyGtB g b = false ↔ bitrateLE g b := by
  simp only [keyGtB, bitrateLE, Bool.or_eq_false_iff, Bool.and_eq_false_iff,
    decide_eq_false_iff_not, not_lt, beq_eq_false_iff_ne, ne_eq]
  constructor
  · rintro ⟨hle, h2⟩
    rcases hle.lt_or_eq with h | h
    · exact Or.inl h
    · rcases h2 with hne | hle2
      · exact absurd h hne
      · exact Or.inr ⟨h, hle2⟩
  · rintro (h | ⟨he, ht⟩)
    · exact ⟨h.le, Or.inl h.ne⟩
    · exact ⟨he.le, Or.inr ht⟩

lemma bitrateLE_of_keyGtB_true {g b : NFormat} (h : keyGtB g b = true) :
    bitrateLE b g := by
  simp only [keyGtB, Bool.or_eq_true, Bool.and_eq_true, decide_eq_true_eq,
    beq_iff_eq] at h
  rcases h with h | ⟨he, ht⟩
  · exact Or.inl h
  · exact Or.inr ⟨he.symm, ht.le⟩

lemma foldTop_spec (f : NFormat) (l : List NFormat) :
    ((l.foldl (fun best g => if keyGtB g best then g else best) f) = f ∨
      (l.foldl (fun best g => if keyGtB g best then g else best) f) ∈ l) ∧
    bitrateLE f (l.foldl (fun best g => if keyGtB g best then g else best) f) ∧
    ∀ x ∈ l, bitrateLE x (l.foldl (fun best g => if keyGtB g best then g else best) f) := by
  induction l generalizing f with
  | nil => exact ⟨Or.inl rfl, bitrateLE_refl f, by simp⟩
  | cons g gs ih =>
    simp only [List.foldl_cons]
    by_cases h : keyGtB g f = true
    · rw [if_pos h]
      obtain ⟨hmem, hinit, hall⟩ := ih g
      refine ⟨?_, ?_, ?_⟩
      · rcases hmem with h' | h'
        · exact Or.inr (by rw [h']; exact List.mem_cons_self _ _)
        · exact Or.inr (List.mem_cons_of_mem _ h')
      · exact bitrateLE_trans (bitrateLE_of_keyGtB_true h) hinit
      · intro x hx
        rcases List.mem_cons.1 hx with rfl | hx
        · exact hinit
        · exact hall x hx
    · rw [if_neg h]
      obtain ⟨hmem, hinit, hall⟩ := ih f
      refine ⟨?_, hinit, ?_⟩
      · rcases hmem with h' | h'
        · exact Or.inl h'
        · exact Or.inr (List.mem_cons_of_mem _ h')
      · intro x hx
        rcases List.mem_cons.1 hx with rfl | hx
        · exact bitrateLE_trans
            (keyGtB_eq_false_iff.1 (Bool.eq_false_iff.2 h)) hinit
        · exact hall x hx

lemma pickTop_eq_none_iff {l : List NFormat} : pickTop l = none ↔ l = [] := by
  cases l <;> simp [pickTop]

lemma pickTop_spec {l : List NFormat} {b : NFormat} (h : pickTop l = some b) :
    b ∈ l ∧ ∀ x ∈ l, bitrateLE x b := by
  cases l with
  | nil => simp [pickTop] at h
  | cons f fs =>
    simp only [pickTop, Option.some.injEq] at h
    obtain ⟨hmem, hinit, hall⟩ := foldTop_spec f fs
    rw [h] at hmem hinit hall
    refine ⟨?_, ?_⟩
    · rcases hmem with h' | h'
      · exact by rw [h']; exact List.mem_cons_self _ _
      · exact List.mem_cons_of_mem _ h'
    · intro x hx
      rcases List.mem_cons.1 hx with rfl | hx
      · exact hinit
      · exact hall x hx

/-- Membership in the `hiAudioOnly` tier built by `chooseBestFormat`,
characterized in terms of the raw input list. -/
lemma mem_hiAudioOnly_iff {formats : List Format} {b : NFormat} :
    b ∈ ((((formats.filter acodecRealRaw).map normFormat).filter
        (fun f => f.vcodec == "none")).filter
          (fun f => 44100 ≤ f.asr.getD 0)) ↔
      ∃ f ∈ formats, qualifiesHiAudioOnly f = true ∧ normFormat f = b := by
  simp only [List.mem_filter, List.mem_map, qualifiesHiAudioOnly, Bool.and_eq_true]
  constructor
  · rintro ⟨⟨⟨f, ⟨hf, hreal⟩, rfl⟩, hv⟩, ha⟩
    exact ⟨f, hf, ⟨⟨List.mem_filter.1 (List.mem_filter.2 ⟨hf, hreal⟩) |>.2, hv⟩, ha⟩, rfl⟩
  · rintro ⟨f, hf, ⟨⟨hreal, hv⟩, ha⟩, rfl⟩
    exact ⟨⟨⟨f, ⟨hf, hreal⟩, rfl⟩, hv⟩, ha⟩

/-- Demonstration input from the design document: one aac audio-only
entry at 44100 Hz / 256 kbps listed before one opus audio-only entry at
44100 Hz / 128 kbps. -/
def demoAac256 : Format := ⟨"141", some "aac", some "none", some 256, none, some 44100⟩

/-- Demonstration input, opus side. -/
def demoOpus128 : Format := ⟨"251", some "opus", some "none", some 128, none, some 44100⟩

/-- C3: `chooseBestFormat` restricts to entries with a real audio codec,
video codec marker `"none"` and sample rate at least 44100, returns a
member of the first non-empty codec tier (opus, then aac/mp4a, then the
rest) that is bitrate-maximal inside the tier it was drawn from, returns
`none` exactly when no entry survives the restriction, and in particular
picks an opus audio-only entry at 128 kbps over an aac audio-only entry
at 256 kbps. -/
theorem chooseBestFormat_spec (formats : List Format) :
    (chooseBestFormat formats = none ↔
      ∀ f ∈ formats, qualifiesHiAudioOnly f = false) ∧
    (∀ b, chooseBestFormat formats = some b →
      (∃ f ∈ formats, qualifiesHiAudioOnly f = true ∧ normFormat f = b) ∧
      ((isOpus b = true ∧
          ∀ f ∈ formats, qualifiesHiAudioOnly f = true →
            isOpus (normFormat f) = true → bitrateLE (normFormat f) b) ∨
       (isOpus b = false ∧ isAac b = true ∧
          (∀ f ∈ formats, qualifiesHiAudioOnly f = true →
            isOpus (normFormat f) = false) ∧
          ∀ f ∈ formats, qualifiesHiAudioOnly f = true →
            isAac (normFormat f) = true → bitrateLE (normFormat f) b) ∨
       (isOpus b = false ∧ isAac b = false ∧
          (∀ f ∈ formats, qualifiesHiAudioOnly f = true →
            isOpus (normFormat f) = false ∧ isAac (normFormat f) = false) ∧
          ∀ f ∈ formats, qualifiesHiAudioOnly f = true →
            bitrateLE (normFormat f) b))) ∧
    (chooseBestFormat [demoAac256, demoOpus128]).map NFormat.format_id
      = some "251" := by
  set hi := ((((formats.filter acodecRealRaw).map normFormat).filter
      (fun f => f.vcodec == "none")).filter
        (fun f => decide (44100 ≤ f.asr.getD 0))) with hhi
  have hunfold : chooseBestFormat formats =
      match pickTop (hi.filter isOpus) with
      | some f => some f
      | none =>
        match pickTop (hi.filter isAac) with
        | some f => some f
        | none => pickTop hi := rfl
  refine ⟨?_, ?_, by decide⟩
  · -- null exactly when the restricted tier is empty
    rw [hunfold]
    constructor
    · intro h f hf
      rcases h1 : pickTop (hi.filter isOpus) with _ | b
      · rcases h2 : pickTop (hi.filter isAac) with _ | b
        · rw [h1, h2] at h
          have : hi = [] := pickTop_eq_none_iff.1 h
          by_contra hq
          have hq' : qualifiesHiAudioOnly f = true := by
            cases hqf : qualifiesHiAudioOnly f
            · exact absurd hqf hq
            · rfl
          have : normFormat f ∈ hi := mem_hiAudioOnly_iff.2 ⟨f, hf, hq', rfl⟩
          simp_all
        · rw [h1, h2] at h; exact absurd h (by simp)
      · rw [h1] at h; exact absurd h (by simp)
    · intro h
      have hempty : hi = [] := by
        rcases hne : hi with _ | ⟨b, rest⟩
        · rfl
        · have hb : b ∈ hi := by rw [hne]; exact List.mem_cons_self _ _
          obtain ⟨f, hf, hq, _⟩ := mem_hiAudioOnly_iff.1 hb
          rw [h f hf] at hq
          exact absurd hq (by simp)
      rw [hempty]
      simp [pickTop]
  · -- the chosen entry comes from the first non-empty tier and is
    -- bitrate-maximal inside it
    intro b hb
    rw [hunfold] at hb
    have memOfTier : ∀ {l : List NFormat}, b ∈ l → l = hi ∨ l = hi.filter isOpus
        ∨ l = hi.filter isAac → b ∈ hi := by
      intro l hbl hl
      rcases hl with rfl | rfl | rfl
      · exact hbl
      · exact (List.mem_filter.1 hbl).1
      · exact (List.mem_filter.1 hbl).1
    rcases h1 : pickTop (hi.filter isOpus) with _ | b1
    · rcases h2 : pickTop (hi.filter isAac) with _ | b2
      · -- tier 3: no opus, no aac among qualifying entries
        rw [h1, h2] at hb
        obtain ⟨hmem, hmax⟩ := pickTop_spec hb
        have hOpusEmpty : hi.filter isOpus = [] := pickTop_eq_none_iff.1 h1
        have hAacEmpty : hi.filter isAac = [] := pickTop_eq_none_iff.1 h2
        have hNoOpus : ∀ x ∈ hi, isOpus x = false := by
          intro x hx
          cases hox : isOpus x
          · rfl
          · have : x ∈ hi.filter isOpus := List.mem_filter.2 ⟨hx, hox⟩
            simp [hOpusEmpty] at this
        have hNoAac : ∀ x ∈ hi, isAac x = false := by
          intro x hx
          cases hox : isAac x
          · rfl
          · have : x ∈ hi.filter isAac := List.mem_filter.2 ⟨hx, hox⟩
            simp [hAacEmpty] at this
        refine ⟨mem_hiAudioOnly_iff.1 hmem, Or.inr (Or.inr
          ⟨hNoOpus b hmem, hNoAac b hmem, ?_, ?_⟩)⟩
        · intro f hf hq
          have : normFormat f ∈ hi := mem_hiAudioOnly_iff.2 ⟨f, hf, hq, rfl⟩
          exact ⟨hNoOpus _ this, hNoAac _ this⟩
        · intro f hf hq
          exact hmax _ (mem_hiAudioOnly_iff.2 ⟨f, hf, hq, rfl⟩)
      · -- tier 2: aac wins because the opus tier is empty
        rw [h1, h2] at hb
        rw [Option.some.injEq] at hb
        subst hb
        obtain ⟨hmem, hmax⟩ := pickTop_spec h2
        have hOpusEmpty : hi.filter isOpus = [] := pickTop_eq_none_iff.1 h1
        have hNoOpus : ∀ x ∈ hi, isOpus x = false := by
          intro x hx
          cases hox : isOpus x
          · rfl
          · have : x ∈ hi.filter isOpus := List.mem_filter.2 ⟨hx, hox⟩
            simp [hOpusEmpty] at this
        have hbhi : b2 ∈ hi := (List.mem_filter.1 hmem).1
        refine ⟨mem_hiAudioOnly_iff.1 hbhi, Or.inr (Or.inl
          ⟨hNoOpus b2 hbhi, (List.mem_filter.1 hmem).2, ?_, ?_⟩)⟩
        · intro f hf hq
          exact hNoOpus _ (mem_hiAudioOnly_iff.2 ⟨f, hf, hq, rfl⟩)
        · intro f hf hq ha
          exact hmax _ (List.mem_filter.2
            ⟨mem_hiAudioOnly_iff.2 ⟨f, hf, hq, rfl⟩, ha⟩)
    · -- tier 1: an opus entry exists and wins
      rw [h1] at hb
      rw [Option.some.injEq] at hb
      subst hb
      obtain ⟨hmem, hmax⟩ := pickTop_spec h1
      have hbhi : b1 ∈ hi := (List.mem_filter.1 hmem).1
      refine ⟨mem_hiAudioOnly_iff.1 hbhi, Or.inl
        ⟨(List.mem_filter.1 hmem).2, ?_⟩⟩
      intro f hf hq ho
      exact hmax _ (List.mem_filter.2
        ⟨mem_hiAudioOnly_iff.2 ⟨f, hf, hq, rfl⟩, ho⟩)

/-- Witness for C3 at the documented opus-vs-aac input: the theorem's
`some` branch, instantiated concretely, produces the qualifying opus
entry of the demonstration list. -/
theorem chooseBestFormat_spec_witness :
    ∃ f ∈ [demoAac256, demoOpus128], qualifiesHiAudioOnly f = true ∧
      normFormat f = normFormat demoOpus128 :=
  ((chooseBestFormat_spec [demoAac256, demoOpus128]).2.1
    (normFormat demoOpus128) (by decide)).1

/-! ## Playlist store (`class PlaylistStore` in `server.js`) -/

/-- A playlist item as built by the `/api/add` success path. -/
structure Track where
  id : String
  title : String
  duration : ℚ
  filepath : String
  sizeBytes : ℕ
  videoId : Option String
  thumbnail : Option String
  deriving Repr, DecidableEq

/-- The per-session playlist: capacity in seconds and the ordered item
list.  `totalSeconds` is a derived getter, not a stored field. -/
structure PlaylistStore where
  capSeconds : ℚ
  items : List Track
  deriving Repr, DecidableEq

/-- Getter `totalSeconds`:
`this.items.reduce((acc, t) => acc + (t.duration || 0), 0)`. -/
def PlaylistStore.totalSeconds (st : PlaylistStore) : ℚ :=
  st.items.foldl (fun acc t => acc + t.duration) 0

/-- `add(item) { this.items.push(item); }` — an unconditional append. -/
def PlaylistStore.add (st : PlaylistStore) (item : Track) : PlaylistStore :=
  { st with items := st.items ++ [item] }

/-- Lookup in `new Map(this.items.map((item) => [item.id, item]))`: for a
duplicated id the later pair overwrites the earlier one, so the lookup
returns the last matching item. -/
def itemsMapGet (items : List Track) (i : String) : Option Track :=
  items.reverse.find? (fun t => t.id == i)

/-- `reorder(orderIds)` from `server.js`: reject on length mismatch, on
duplicate ids in the request (`Set` size check), or on an id with no
matching item; otherwise splice in the items in the requested order and
report success. -/
def PlaylistStore.reorder (st : PlaylistStore) (orderIds : List String) :
    Bool × PlaylistStore :=
  if orderIds.length ≠ st.items.length then (false, st)
  else if orderIds.dedup.length ≠ orderIds.length then (false, st)
  else if orderIds.any (fun i => (itemsMapGet st.items i).isNone) then (false, st)
  else (true, { st with items := orderIds.filterMap (itemsMapGet st.items) })

lemma itemsMapGet_isSome_iff {items : List Track} {i : String} :
    (itemsMapGet items i).isSome ↔ i ∈ items.map Track.id := by
  simp only [itemsMapGet, List.find?_isSome, List.mem_reverse, List.mem_map,
    beq_iff_eq]

lemma itemsMapGet_eq_some {items : List Track} {i : String} {t : Track}
    (h : itemsMapGet items i = some t) : t.id = i ∧ t ∈ items := by
  refine ⟨by simpa using List.find?_some h, ?_⟩
  have := List.mem_of_find?_eq_some h
  simpa using this

lemma dedup_length_eq_iff {l : List String} :
    l.dedup.length = l.length ↔ l.Nodup := by
  constructor
  · intro h
    exact List.dedup_eq_self.1 (List.Sublist.eq_of_length (List.dedup_sublist l) h)
  · intro h; rw [List.dedup_eq_self.2 h]

/-- The success condition of `reorder`, characterized: the request list
is a duplicate-free permutation of the current item ids. -/
lemma reorder_fst_eq_true_iff {st : PlaylistStore} {ids : List String} :
    (st.reorder ids).1 = true ↔
      ids.Perm (st.items.map Track.id) ∧ ids.Nodup := by
  unfold PlaylistStore.reorder
  by_cases h1 : ids.length ≠ st.items.length
  · rw [if_pos h1]
    simp only [Bool.false_eq_true, false_iff, not_and]
    intro hperm
    exact absurd (by simpa using hperm.length_eq) h1
  · rw [if_neg h1]
    push_neg at h1
    by_cases h2 : ids.dedup.length ≠ ids.length
    · rw [if_pos h2]
      simp only [Bool.false_eq_true, false_iff, not_and]
      intro _ hnd
      exact absurd (dedup_length_eq_iff.2 hnd) h2
    · rw [if_neg h2]
      push_neg at h2
      have hnd : ids.Nodup := dedup_length_eq_iff.1 h2
      by_cases h3 : ids.any (fun i => (itemsMapGet st.items i).isNone) = true
      · rw [if_pos h3]
        simp only [List.any_eq_true, Option.isNone_iff_eq_none] at h3
        obtain ⟨i, hi, hnone⟩ := h3
        simp only [Bool.false_eq_true, false_iff, not_and]
        intro hperm _
        have hmem : i ∈ st.items.map Track.id := hperm.subset hi
        rw [← itemsMapGet_isSome_iff] at hmem
        simp [hnone] at hmem
      · rw [if_neg h3]
        simp only [true_iff]
        refine ⟨?_, hnd⟩
        have hsub : ids ⊆ st.items.map Track.id := by
          intro i hi
          rw [← itemsMapGet_isSome_iff]
          simp only [List.any_eq_true, not_exists, not_and] at h3
          have hns : ¬ (itemsMapGet st.items i).isNone = true := by
            intro hn
            exact h3 i hi hn
          simpa [Option.isSome_iff_ne_none, Option.isNone_iff_eq_none] using hns
        exact (hnd.subperm hsub).perm_of_length_le
          (by simpa using h1.ge)

/-- On a failed check `reorder` leaves the store untouched. -/
lemma reorder_snd_of_false {st : PlaylistStore} {ids : List String}
    (h : (st.reorder ids).1 = false) : (st.reorder ids).2 = st := by
  unfold PlaylistStore.reorder at h ⊢
  split_ifs at h ⊢ with h1 h2 h3
  all_goals rfl

/-- On success `reorder` replaces the item list by the map-lookup of each
requested id. -/
lemma reorder_snd_of_true {st : PlaylistStore} {ids : List String}
    (h : (st.reorder ids).1 = true) :
    (st.reorder ids).2 = { st with items := ids.filterMap (itemsMapGet st.items) } := by
  unfold PlaylistStore.reorder at h ⊢
  split_ifs at h ⊢ with h1 h2 h3
  all_goals rfl

lemma reorder_all_isSome_of_true {st : PlaylistStore} {ids : List String}
    (h : (st.reorder ids).1 = true) :
    ∀ i ∈ ids, (itemsMapGet st.items i).isSome := by
  intro i hi
  unfold PlaylistStore.reorder at h
  split_ifs at h with h1 h2 h3
  all_goals simp at h
  simp only [List.any_eq_true, not_exists, not_and] at h3
  have hni : ¬ (itemsMapGet st.items i).isNone = true := fun hn => h3 i hi hn
  simpa [Option.isSome_iff_ne_none, Option.isNone_iff_eq_none] using hni

lemma map_id_filterMap_get {items : List Track} :
    ∀ {ids : List String}, (∀ i ∈ ids, (itemsMapGet items i).isSome) →
      (ids.filterMap (itemsMapGet items)).map Track.id = ids := by
  intro ids
  induction ids with
  | nil => simp
  | cons i is ih =>
    intro hall
    obtain ⟨t, ht⟩ := Option.isSome_iff_exists.1 (hall i (List.mem_cons_self i is))
    have hid : t.id = i := (itemsMapGet_eq_some ht).1
    simp [List.filterMap_cons, ht, hid,
      ih (fun j hj => hall j (List.mem_cons_of_mem _ hj))]

lemma itemsMapGet_of_nodup {items : List Track}
    (hnd : (items.map Track.id).Nodup) {t : Track} (ht : t ∈ items) :
    itemsMapGet items t.id = some t := by
  have hsome : (itemsMapGet items t.id).isSome :=
    itemsMapGet_isSome_iff.2 (List.mem_map_of_mem _ ht)
  obtain ⟨u, hu⟩ := Option.isSome_iff_exists.1 hsome
  obtain ⟨huid, humem⟩ := itemsMapGet_eq_some hu
  have : u = t := List.inj_on_of_nodup_map hnd humem ht huid
  rw [hu, this]

lemma filterMap_eq_self_of_forall_some {α : Type} {g : α → Option α} :
    ∀ {l : List α}, (∀ x ∈ l, g x = some x) → l.filterMap g = l := by
  intro l
  induction l with
  | nil => simp
  | cons x xs ih =>
    intro hall
    simp [List.filterMap_cons, hall x (List.mem_cons_self x xs),
      ih (fun y hy => hall y (List.mem_cons_of_mem _ hy))]

lemma foldl_add_duration (l : List Track) :
    ∀ a : ℚ, l.foldl (fun acc t => acc + t.duration) a
      = a + (l.map Track.duration).sum := by
  induction l with
  | nil => simp
  | cons t ts ih =>
    intro a
    simp [List.foldl_cons, ih, add_assoc]

lemma totalSeconds_eq_sum (st : PlaylistStore) :
    st.totalSeconds = (st.items.map Track.duration).sum := by
  unfold PlaylistStore.totalSeconds
  rw [foldl_add_duration, zero_add]

/-- C5: `reorder(idList)` succeeds exactly when the id list is a
duplicate-free permutation of the current item identifiers; on success
the new internal order follows the requested list (capacity untouched),
and on any mismatch the playlist is left completely unchanged. -/
theorem reorder_permutation_gate (st : PlaylistStore) (ids : List String) :
    ((st.reorder ids).1 = true ↔
      ids.Perm (st.items.map Track.id) ∧ ids.Nodup) ∧
    ((st.reorder ids).1 = true →
      (st.reorder ids).2.items.map Track.id = ids ∧
      (st.reorder ids).2.capSeconds = st.capSeconds) ∧
    ((st.reorder ids).1 = false → (st.reorder ids).2 = st) := by
  refine ⟨reorder_fst_eq_true_iff, ?_, reorder_snd_of_false⟩
  intro h
  rw [reorder_snd_of_true h]
  exact ⟨map_id_filterMap_get (reorder_all_isSome_of_true h), rfl⟩

/-- Concrete two-track playlist used by the reorder witnesses. -/
def demoTrackA : Track := ⟨"a", "Track A", 120, "/tmp/a.mp3", 1000, none, none⟩

/-- Concrete second track for the reorder witnesses. -/
def demoTrackB : Track := ⟨"b", "Track B", 200, "/tmp/b.mp3", 2000, none, none⟩

/-- Concrete store holding the two demonstration tracks with the
80-minute capacity from `config.capSeconds`. -/
def demoPlaylist : PlaylistStore := ⟨80 * 60, [demoTrackA, demoTrackB]⟩

/-- Witness for C5: reversing the two demonstration ids is accepted and
installs the requested order. -/
theorem reorder_permutation_gate_witness :
    (demoPlaylist.reorder ["b", "a"]).2.items.map Track.id = ["b", "a"] ∧
    (demoPlaylist.reorder ["b", "a"]).2.capSeconds = demoPlaylist.capSeconds :=
  (reorder_permutation_gate demoPlaylist ["b", "a"]).2.1 (by decide)

/-- C9: `add(track)` appends unconditionally — the store never rejects an
addition, keeps the configured capacity as a mere report, and the derived
total grows by exactly the new duration even past `capSeconds`. -/
theorem add_unconditional_append (st : PlaylistStore) (item : Track) :
    (st.add item).items = st.items ++ [item] ∧
    (st.add item).capSeconds = st.capSeconds ∧
    (st.add item).totalSeconds = st.totalSeconds + item.duration := by
  refine ⟨rfl, rfl, ?_⟩
  show PlaylistStore.totalSeconds _ = _
  rw [totalSeconds_eq_sum, totalSeconds_eq_sum]
  show ((st.items ++ [item]).map Track.duration).sum = _
  simp

/-- C10: a successful `reorder` permutes the very same track entities —
the item multiset, the capacity and the derived `totalSeconds` are all
unchanged. -/
theorem reorder_preserves_multiset (st : PlaylistStore) (ids : List String)
    (h : (st.reorder ids).1 = true) :
    (st.reorder ids).2.items.Perm st.items ∧
    (st.reorder ids).2.capSeconds = st.capSeconds ∧
    (st.reorder ids).2.totalSeconds = st.totalSeconds := by
  obtain ⟨hperm, hnd⟩ := reorder_fst_eq_true_iff.1 h
  rw [reorder_snd_of_true h]
  have hndmap : (st.items.map Track.id).Nodup := hperm.nodup hnd
  have hitems : (ids.filterMap (itemsMapGet st.items)).Perm st.items := by
    have h1 : (ids.filterMap (itemsMapGet st.items)).Perm
        ((st.items.map Track.id).filterMap (itemsMapGet st.items)) :=
      hperm.filterMap _
    have h2 : (st.items.map Track.id).filterMap (itemsMapGet st.items)
        = st.items.filterMap (fun t => itemsMapGet st.items t.id) :=
      List.filterMap_map _ _ _
    have h3 : st.items.filterMap (fun t => itemsMapGet st.items t.id) = st.items :=
      filterMap_eq_self_of_forall_some (fun t ht => itemsMapGet_of_nodup hndmap ht)
    rw [h2, h3] at h1
    exact h1
  refine ⟨hitems, rfl, ?_⟩
  show PlaylistStore.totalSeconds _ = _
  rw [totalSeconds_eq_sum, totalSeconds_eq_sum]
  exact (hitems.map Track.duration).sum_eq

/-- Witness for C10: the concrete reversal keeps the same two tracks and
the same total duration. -/
theorem reorder_preserves_multiset_witness :
    (demoPlaylist.reorder ["b", "a"]).2.items.Perm demoPlaylist.items ∧
    (demoPlaylist.reorder ["b", "a"]).2.totalSeconds = demoPlaylist.totalSeconds :=
  ⟨(reorder_preserves_multiset demoPlaylist ["b", "a"] (by decide)).1,
    (reorder_preserves_multiset demoPlaylist ["b", "a"] (by decide)).2.2⟩

/-! ## Add-progress table (`addProgressMap` and `setAddProgress`) -/

/-- One entry of `addProgressMap`: value, done flag, expiry timestamp and
the last value that was logged. -/
structure ProgressEntry where
  value : ℚ
  done : Bool
  expiresAt : ℤ
  loggedValue : ℚ
  deriving Repr, DecidableEq

/-- The global `addProgressMap`, a JS `Map` modelled as an
insertion-ordered association list. -/
abbrev ProgressMap : Type := List (String × ProgressEntry)

/-- `ADD_PROGRESS_ACTIVE_TTL = 1000 * 60 * 5`. -/
def ADD_PROGRESS_ACTIVE_TTL : ℤ := 1000 * 60 * 5

/-- `ADD_PROGRESS_DONE_TTL = 1000 * 10`. -/
def ADD_PROGRESS_DONE_TTL : ℤ := 1000 * 10

/-- `purgeAddProgress()`: drop every entry with `expiresAt <= now` (the
malformed-entry branch cannot arise in the typed model). -/
def purgeAddProgress (now : ℤ) (m : ProgressMap) : ProgressMap :=
  List.filter (fun p => now < p.2.expiresAt) m

/-- JS `Map.prototype.get` on the progress table. -/
def progressLookup (m : ProgressMap) (k : String) : Option ProgressEntry :=
  (List.find? (fun p => p.1 == k) m).map (·.2)

/-- JS `Map.prototype.set`: overwrite in place when the key is present,
append otherwise. -/
def progressSet (m : ProgressMap) (k : String) (v : ProgressEntry) : ProgressMap :=
  if List.any m (fun p => p.1 == k) then
    List.map (fun p => if p.1 == k then (k, v) else p) m
  else m ++ [(k, v)]

/-- `setAddProgress(token, value, { done })` from `server.js`: a falsy
token is ignored; otherwise purge, clamp the (finite) value into
`[0, 100]`, take the max with the previous value when not done, and
store the entry with the done-dependent TTL. -/
def setAddProgress (now : ℤ) (token : String) (value : ℚ) (done : Bool)
    (m : ProgressMap) : ProgressMap :=
  if token = "" then m
  else
    let m1 := purgeAddProgress now m
    let clamped := max 0 (min 100 value)
    let nextValue :=
      match progressLookup m1 token with
      | some prev => if !done then max prev.value clamped else clamped
      | none => clamped
    progressSet m1 token
      { value := nextValue
        done := done
        expiresAt := now + (if done then ADD_PROGRESS_DONE_TTL else ADD_PROGRESS_ACTIVE_TTL)
        loggedValue := nextValue }

lemma progressSet_lookup_self (m : ProgressMap) (k : String) (v : ProgressEntry) :
    progressLookup (progressSet m k v) k = some v := by
  unfold progressSet progressLookup
  by_cases h : List.any m (fun p => p.1 == k) = true
  · rw [if_pos h]
    induction m with
    | nil => simp at h
    | cons p ps ih =>
      by_cases hp : p.1 = k
      · simp [hp]
      · have hps : List.any ps (fun q => q.1 == k) = true := by
          simpa [List.any_cons, hp] using h
        simpa [hp] using ih hps
  · rw [if_neg h]
    have hnone : List.find? (fun p => p.1 == k) m = none := by
      rw [List.find?_eq_none]
      intro p hp
      simp only [List.any_eq_true, not_exists, not_and] at h
      simpa using fun he => h p hp (by simpa using he)
    rw [List.find?_append, hnone]
    simp

lemma mem_of_progressSet {m : ProgressMap} {k : String} {v : ProgressEntry}
    {p : String × ProgressEntry} (hp : p ∈ progressSet m k v) :
    p ∈ m ∨ p = (k, v) := by
  unfold progressSet at hp
  by_cases h : List.any m (fun q => q.1 == k) = true
  · rw [if_pos h] at hp
    obtain ⟨q, hq, hqe⟩ := List.mem_map.1 hp
    by_cases hqk : q.1 = k
    · right; simp [hqk] at hqe; exact hqe.symm
    · left; simp [hqk] at hqe; exact hqe ▸ hq
  · rw [if_neg h] at hp
    rcases List.mem_append.1 hp with h' | h'
    · exact Or.inl h'
    · right; simpa using h'

lemma mem_of_purgeAddProgress {now : ℤ} {m : ProgressMap}
    {p : String × ProgressEntry} (hp : p ∈ purgeAddProgress now m) : p ∈ m :=
  (List.mem_filter.1 hp).1

lemma progressLookup_mem {m : ProgressMap} {k : String} {e : ProgressEntry}
    (h : progressLookup m k = some e) : (k, e) ∈ m := by
  unfold progressLookup at h
  obtain ⟨p, hp, hpe⟩ := Option.map_eq_some'.1 h
  have hk : p.1 = k := by simpa using List.find?_some hp
  have hm := List.mem_of_find?_eq_some hp
  have : p = (k, e) := by
    cases p with
    | mk a b => simp only at hk hpe; rw [hk, hpe]
  exact this ▸ hm

/-- C4: recorded progress values always lie in `[0, 100]`; a not-done
update over a live not-done entry never lowers the recorded value; and
feeding 50, 30, 80 to a fresh token records the sequence 50, 50, 80. -/
theorem setAddProgress_bounds_and_monotone (now : ℤ) (token : String)
    (value : ℚ) (done : Bool) (m : ProgressMap) :
    ((∀ p ∈ m, 0 ≤ p.2.value ∧ p.2.value ≤ 100) →
      ∀ p ∈ setAddProgress now token value done m,
        0 ≤ p.2.value ∧ p.2.value ≤ 100) ∧
    (token ≠ "" → done = false →
      ∀ e, progressLookup (purgeAddProgress now m) token = some e →
        e.done = false →
        ∃ e2, progressLookup (setAddProgress now token value done m) token
            = some e2 ∧ e.value ≤ e2.value ∧ e2.done = false) ∧
    ((progressLookup (setAddProgress 0 "t" 50 false []) "t").map
        ProgressEntry.value = some 50 ∧
      (progressLookup (setAddProgress 0 "t" 30 false
        (setAddProgress 0 "t" 50 false [])) "t").map
          ProgressEntry.value = some 50 ∧
      (progressLookup (setAddProgress 0 "t" 80 false
        (setAddProgress 0 "t" 30 false
          (setAddProgress 0 "t" 50 false []))) "t").map
            ProgressEntry.value = some 80) := by
  have hclamp : ∀ v : ℚ, 0 ≤ max 0 (min 100 v) ∧ max 0 (min 100 v) ≤ 100 :=
    fun v => ⟨le_max_left _ _, max_le (by norm_num) (min_le_left _ _)⟩
  refine ⟨?_, ?_, by decide⟩
  · intro hb p hp
    by_cases htok : token = ""
    · rw [setAddProgress, if_pos htok] at hp
      exact hb p hp
    · simp only [setAddProgress, if_neg htok] at hp
      rcases mem_of_progressSet hp with hpm | rfl
      · exact hb p (mem_of_purgeAddProgress hpm)
      · simp only
        rcases hlk : progressLookup (purgeAddProgress now m) token with _ | prev
        · exact hclamp value
        · have hprevb := hb _ (mem_of_purgeAddProgress (progressLookup_mem hlk))
          cases done
          · simp only [Bool.not_false, if_pos rfl]
            exact ⟨le_trans (hclamp value).1 (le_max_right _ _),
              max_le hprevb.2 (hclamp value).2⟩
          · simp only [Bool.not_true, Bool.false_eq_true, if_false]
            exact hclamp value
  · intro htok hdone e hlk hedone
    subst hdone
    have hres : setAddProgress now token value false m
        = progressSet (purgeAddProgress now m) token
            { value := max e.value (max 0 (min 100 value))
              done := false
              expiresAt := now + ADD_PROGRESS_ACTIVE_TTL
              loggedValue := max e.value (max 0 (min 100 value)) } := by
      simp [setAddProgress, htok, hlk]
    refine ⟨{ value := max e.value (max 0 (min 100 value))
              done := false
              expiresAt := now + ADD_PROGRESS_ACTIVE_TTL
              loggedValue := max e.value (max 0 (min 100 value)) },
      ?_, le_max_left _ _, rfl⟩
    rw [hres]
    exact progressSet_lookup_self _ _ _

/-- Witness for C4: after recording 50 for token `"t"`, a not-done
update is guaranteed to keep the recorded value at 50 or above. -/
theorem setAddProgress_bounds_and_monotone_witness :
    ∃ e2, progressLookup (setAddProgress 0 "t" 30 false
        (setAddProgress 0 "t" 50 false [])) "t" = some e2 ∧
      (50 : ℚ) ≤ e2.value ∧ e2.done = false := by
  obtain ⟨e2, h1, h2, h3⟩ :=
    (setAddProgress_bounds_and_monotone 0 "t" 30 false
      (setAddProgress 0 "t" 50 false [])).2.1 (by decide) rfl
      ⟨50, false, 300000, 50⟩ (by decide) rfl
  exact ⟨e2, h1, h2, h3⟩

/-! ## The `/api/add` handler (cancellation protocol) -/

/-- Terminal outcome of one `/api/add` request. -/
inductive AddOutcome
  | canceled
  | added (item : Track)
  | failed
  deriving Repr, DecidableEq

/-- External interactions of one `/api/add` execution, taken as inputs:
the two reads of the canceled-token set (`isAddCanceled` before the
spawn and again after a successful job), the subprocess exit code, the
final printed output path, and the `fsp.stat` result on it. -/
structure AddJobEnv where
  canceledAtStart : Bool
  exitCode : ℤ
  printedPath : Option String
  statSize : Option ℕ
  canceledAtEnd : Bool
  deriving Repr, DecidableEq

/-- Metadata already fetched by the handler before the job starts. -/
structure AddMeta where
  title : String
  duration : ℚ
  videoId : Option String
  thumbnail : Option String
  deriving Repr, DecidableEq

/-- Result of one `/api/add` execution: the JSON outcome, whether a
subprocess was spawned, which file (if any) was unlinked, and the
playlist left behind. -/
structure AddResult where
  outcome : AddOutcome
  spawned : Bool
  unlinked : Option String
  playlist : PlaylistStore
  deriving Repr, DecidableEq

/-- The `/api/add` handler of `server.js` after metadata has been read
successfully, with its external interactions supplied by `env`:
 * a canceled token found before the spawn returns `{canceled:true}`
   without starting the subprocess;
 * a nonzero exit or a missing printed path throws into the catch block
   (no file assigned yet, so nothing is unlinked);
 * a failing `stat` throws after `filePath` was assigned, so the catch
   block unlinks it;
 * a canceled token found after a successful job deletes the produced
   file and returns `{canceled:true}`;
 * otherwise the track is appended to the session playlist. -/
def apiAdd (hasToken : Bool) (env : AddJobEnv) (meta : AddMeta)
    (newItemId : String) (st : PlaylistStore) : AddResult :=
  if hasToken && env.canceledAtStart then
    { outcome := .canceled, spawned := false, unlinked := none, playlist := st }
  else if env.exitCode ≠ 0 then
    { outcome := .failed, spawned := true, unlinked := none, playlist := st }
  else
    match env.printedPath with
    | none => { outcome := .failed, spawned := true, unlinked := none, playlist := st }
    | some fp =>
      match env.statSize with
      | none => { outcome := .failed, spawned := true, unlinked := some fp, playlist := st }
      | some size =>
        if hasToken && env.canceledAtEnd then
          { outcome := .canceled, spawned := true, unlinked := some fp, playlist := st }
        else
          { outcome := .added ⟨newItemId, meta.title, meta.duration, fp, size,
              meta.videoId, meta.thumbnail⟩
            spawned := true
            unlinked := none
            playlist := st.add ⟨newItemId, meta.title, meta.duration, fp, size,
              meta.videoId, meta.thumbnail⟩ }

/-- C1: for an add request carrying a client token, a cancellation seen
at the pre-spawn check yields a canceled outcome with no subprocess; a
cancellation seen at the post-success check unlinks the fresh file and
yields a canceled outcome; and whenever either check saw the token
canceled, the playlist is left exactly as it was — a canceled add never
appends a track. -/
theorem apiAdd_cancellation (env : AddJobEnv) (meta : AddMeta)
    (newItemId : String) (st : PlaylistStore) :
    (env.canceledAtStart = true →
      apiAdd true env meta newItemId st
        = { outcome := .canceled, spawned := false, unlinked := none,
            playlist := st }) ∧
    (∀ fp size, env.canceledAtStart = false → env.exitCode = 0 →
      env.printedPath = some fp → env.statSize = some size →
      env.canceledAtEnd = true →
      apiAdd true env meta newItemId st
        = { outcome := .canceled, spawned := true, unlinked := some fp,
            playlist := st }) ∧
    ((env.canceledAtStart = true ∨ env.canceledAtEnd = true) →
      (apiAdd true env meta newItemId st).playlist = st) := by
  refine ⟨?_, ?_, ?_⟩
  · intro h
    simp [apiAdd, h]
  · intro fp size h0 hc hp hs h1
    simp [apiAdd, h0, hc, hp, hs, h1]
  · intro h
    rcases h with h | h
    · simp [apiAdd, h]
    · unfold apiAdd
      by_cases h0 : env.canceledAtStart
      · simp [h0]
      · simp only [h0, Bool.and_false, Bool.true_and, Bool.false_eq_true,
          if_false]
        by_cases hc : env.exitCode ≠ 0
        · rw [if_pos hc]
        · rw [if_neg hc]
          rcases env.printedPath with _ | fp
          · rfl
          · rcases env.statSize with _ | size
            · rfl
            · simp [h]

/-- Witness for C1: a concrete run that succeeds (exit 0, path printed,
stat ok) but whose token was canceled during the run is reported
canceled, the file is unlinked, and the demo playlist is unchanged. -/
theorem apiAdd_cancellation_witness :
    apiAdd true ⟨false, 0, some "/tmp/t/song.mp3", some 999, true⟩
        ⟨"Song", 180, none, none⟩ "id1" demoPlaylist
      = { outcome := .canceled, spawned := true,
          unlinked := some "/tmp/t/song.mp3", playlist := demoPlaylist } :=
  (apiAdd_cancellation ⟨false, 0, some "/tmp/t/song.mp3", some 999, true⟩
    ⟨"Song", 180, none, none⟩ "id1" demoPlaylist).2.1
    "/tmp/t/song.mp3" 999 rfl rfl rfl rfl rfl

/-! ## Smart metadata probing (`getVideoMetaSmart`) -/

/-- Settled result of one `getVideoMetaDetailed` call: whether the probe
succeeded and, for a success, `meta.formats` (defaulted to `[]` when the
field is absent, as in `Array.isArray(meta?.formats) ? ... : []`). -/
structure MetaResult where
  ok : Bool
  formats : List Format
  deriving Repr, DecidableEq

/-- The `hasAudioOnlyHi` test inside `getVideoMetaSmart`:
`String(f?.vcodec || "").toLowerCase() === "none" && f?.acodec &&
f.acodec !== "none" && (Number(f.asr) || 0) >= 44100`. -/
def hasAudioOnlyHi (r : MetaResult) : Bool :=
  r.formats.any (fun f =>
    (jsToLower (f.vcodec.getD "") == "none") && acodecRealRaw f
      && (44100 ≤ f.asr.getD 0))

/-- The selection phase of `getVideoMetaSmart` over the settled results
of `Promise.all` (one result per candidate client identity, in
candidate-list order, with no operator-configured `EXTRACTOR_ARGS`
short-circuit): scan for the first ok result exposing a hi-fi audio-only
format; else, among ok results, keep the one with the most formats (the
head of the stable sort by descending `formats.length`); else the very
first result. -/
def getVideoMetaSmart (results : List MetaResult) : Option MetaResult :=
  match results.find? (fun r => r.ok && hasAudioOnlyHi r) with
  | some r => some r
  | none =>
    match results.filter (fun r => r.ok) with
    | [] => results.head?
    | o :: os =>
      some (os.foldl (fun best r =>
        if best.formats.length < r.formats.length then r else best) o)

lemma foldRichest_spec (o : MetaResult) (l : List MetaResult) :
    ((l.foldl (fun best r =>
        if best.formats.length < r.formats.length then r else best) o) = o ∨
      (l.foldl (fun best r =>
        if best.formats.length < r.formats.length then r else best) o) ∈ l) ∧
    o.formats.length ≤ (l.foldl (fun best r =>
        if best.formats.length < r.formats.length then r else best) o).formats.length ∧
    ∀ x ∈ l, x.formats.length ≤ (l.foldl (fun best r =>
        if best.formats.length < r.formats.length then r else best) o).formats.length := by
  induction l generalizing o with
  | nil => exact ⟨Or.inl rfl, le_refl _, by simp⟩
  | cons r rs ih =>
    simp only [List.foldl_cons]
    by_cases h : o.formats.length < r.formats.length
    · rw [if_pos h]
      obtain ⟨hmem, hinit, hall⟩ := ih r
      refine ⟨?_, le_trans h.le hinit, ?_⟩
      · rcases hmem with h' | h'
        · exact Or.inr (by rw [h']; exact List.mem_cons_self _ _)
        · exact Or.inr (List.mem_cons_of_mem _ h')
      · intro x hx
        rcases List.mem_cons.1 hx with rfl | hx
        · exact hinit
        · exact hall x hx
    · rw [if_neg h]
      obtain ⟨hmem, hinit, hall⟩ := ih o
      refine ⟨?_, hinit, ?_⟩
      · rcases hmem with h' | h'
        · exact Or.inl h'
        · exact Or.inr (List.mem_cons_of_mem _ h')
      · intro x hx
        rcases List.mem_cons.1 hx with rfl | hx
        · exact le_trans (not_lt.1 h) hinit
        · exact hall x hx

/-- C2: with no operator short-circuit, the smart-probe selection over
the settled per-candidate results returns (1) the first result in
candidate order that is ok and exposes a hi-fi audio-only format, else
(2) an ok result exposing the most formats, else (3) the very first
result; the witness instantiates the documented scenario where only the
second of three candidates qualifies. -/
theorem getVideoMetaSmart_selection (results : List MetaResult) :
    (∀ pre r suf, results = pre ++ r :: suf →
      (r.ok && hasAudioOnlyHi r) = true →
      (∀ x ∈ pre, (x.ok && hasAudioOnlyHi x) = false) →
      getVideoMetaSmart results = some r) ∧
    ((∀ x ∈ results, (x.ok && hasAudioOnlyHi x) = false) →
      (∃ x ∈ results, x.ok = true) →
      ∃ r, getVideoMetaSmart results = some r ∧ r ∈ results ∧ r.ok = true ∧
        ∀ y ∈ results, y.ok = true →
          y.formats.length ≤ r.formats.length) ∧
    ((∀ x ∈ results, x.ok = false) →
      getVideoMetaSmart results = results.head?) := by
  refine ⟨?_, ?_, ?_⟩
  · intro pre r suf hres hq hpre
    subst hres
    unfold getVideoMetaSmart
    have hfind : (pre ++ r :: suf).find? (fun x => x.ok && hasAudioOnlyHi x)
        = some r := by
      induction pre with
      | nil => simp [List.find?_cons, hq]
      | cons p ps ih =>
        have hp : (p.ok && hasAudioOnlyHi p) = false :=
          hpre p (List.mem_cons_self _ _)
        simp only [List.cons_append, List.find?_cons, hp]
        exact ih (fun x hx => hpre x (List.mem_cons_of_mem _ hx))
    rw [hfind]
  · intro hnoq hok
    unfold getVideoMetaSmart
    have hfind : results.find? (fun x => x.ok && hasAudioOnlyHi x) = none := by
      rw [List.find?_eq_none]
      intro x hx
      simp [hnoq x hx]
    rw [hfind]
    rcases hfil : results.filter (fun r => r.ok) with _ | ⟨o, os⟩
    · obtain ⟨x, hx, hxok⟩ := hok
      have : x ∈ results.filter (fun r => r.ok) :=
        List.mem_filter.2 ⟨hx, hxok⟩
      rw [hfil] at this
      simp at this
    · obtain ⟨hmem, hinit, hall⟩ := foldRichest_spec o os
      rw [hfil]
      refine ⟨_, rfl, ?_, ?_, ?_⟩
      · have : (os.foldl (fun best r =>
            if best.formats.length < r.formats.length then r else best) o)
              ∈ results.filter (fun r => r.ok) := by
          rw [hfil]
          rcases hmem with h' | h'
          · rw [h']; exact List.mem_cons_self _ _
          · exact List.mem_cons_of_mem _ h'
        exact (List.mem_filter.1 this).1
      · have : (os.foldl (fun best r =>
            if best.formats.length < r.formats.length then r else best) o)
              ∈ results.filter (fun r => r.ok) := by
          rw [hfil]
          rcases hmem with h' | h'
          · rw [h']; exact List.mem_cons_self _ _
          · exact List.mem_cons_of_mem _ h'
        simpa using (List.mem_filter.1 this).2
      · intro y hy hyok
        have hyfil : y ∈ results.filter (fun r => r.ok) :=
          List.mem_filter.2 ⟨hy, by simpa using hyok⟩
        rw [hfil] at hyfil
        rcases List.mem_cons.1 hyfil with rfl | hyos
        · exact hinit
        · exact hall y hyos
  · intro hnone
    unfold getVideoMetaSmart
    have hfind : results.find? (fun x => x.ok && hasAudioOnlyHi x) = none := by
      rw [List.find?_eq_none]
      intro x hx
      simp [hnone x hx]
    have hfil : results.filter (fun r => r.ok) = [] := by
      rw [List.filter_eq_nil_iff]
      intro x hx
      simp [hnone x hx]
    rw [hfind, hfil]

/-- Concrete probe results for the documented scenario: three candidate
identities where only the second succeeds with a hi-fi audio-only
format. -/
def demoProbeFailed : MetaResult := ⟨false, []⟩

/-- Second candidate's result: ok, with one hi-fi audio-only format. -/
def demoProbeGood : MetaResult :=
  ⟨true, [⟨"251", some "opus", some "none", some 128, none, some 48000⟩]⟩

/-- Third candidate's result: ok but only a low-sample-rate format. -/
def demoProbeLow : MetaResult :=
  ⟨true, [⟨"140", some "mp4a.40.2", some "none", some 128, none, some 22050⟩]⟩

/-- Witness for C2: in the three-candidate scenario the second result is
selected even though it is not first in trust order. -/
theorem getVideoMetaSmart_selection_witness :
    getVideoMetaSmart [demoProbeFailed, demoProbeGood, demoProbeLow]
      = some demoProbeGood :=
  (getVideoMetaSmart_selection [demoProbeFailed, demoProbeGood, demoProbeLow]).1
    [demoProbeFailed] demoProbeGood [demoProbeLow] rfl (by decide) (by decide)

/-! ## Session-context creation (`getSessionContext`) -/

/-- Abstract state of one session identifier inside the two global maps:
whether `sessionContexts` holds a context for it, whether
`sessionCreationPromises` holds an in-flight creation promise for it,
and how many times `createSessionContext` has been invoked for it. -/
structure SessionLifeState where
  hasContext : Bool
  hasPending : Bool
  creations : ℕ
  deriving Repr, DecidableEq

/-- Event-loop steps of `getSessionContext` for one identifier.  The JS
code between `sessionContexts.get(sid)` and
`sessionCreationPromises.set(sid, pending)` contains no `await`, so each
request's check-then-register runs atomically on the single-threaded
event loop:
 * `resolveHit`: the context exists, the request returns it;
 * `resolveAwait`: no context yet but a creation promise is registered,
   the request awaits that shared promise;
 * `resolveCreate`: neither map has the identifier, the request invokes
   `createSessionContext` (counted) and registers the shared promise;
 * `creationComplete`: the promise body finishes, storing the context
   and deleting the pending promise in one synchronous continuation. -/
inductive SessionStep : SessionLifeState → SessionLifeState → Prop
  | resolveHit (s : SessionLifeState) :
      s.hasContext = true → SessionStep s s
  | resolveAwait (s : SessionLifeState) :
      s.hasContext = false → s.hasPending = true → SessionStep s s
  | resolveCreate (s : SessionLifeState) :
      s.hasContext = false → s.hasPending = false →
      SessionStep s ⟨false, true, s.creations + 1⟩
  | creationComplete (s : SessionLifeState) :
      s.hasPending = true → SessionStep s ⟨true, false, s.creations⟩

/-- State of a brand-new identifier: unknown to both maps, never
created. -/
def freshSession : SessionLifeState := ⟨false, false, 0⟩

lemma sessionStep_invariant {s s' : SessionLifeState}
    (hinv : s.creations = (if s.hasContext || s.hasPending then 1 else 0))
    (hstep : SessionStep s s') :
    s'.creations = (if s'.hasContext || s'.hasPending then 1 else 0) := by
  cases hstep with
  | resolveHit h => exact hinv
  | resolveAwait h1 h2 => exact hinv
  | resolveCreate h1 h2 =>
    simp only
    rw [hinv, h1, h2]
    simp
  | creationComplete h =>
    simp only
    rw [hinv, h]
    simp

/-- C6: starting from a fresh identifier, any interleaving of concurrent
requests and creation completions invokes `createSessionContext` at most
once, and whenever a context exists it was created exactly once — the
shared in-flight promise makes lazy creation exactly-once under
concurrency. -/
theorem sessionCreation_exactly_once (s : SessionLifeState)
    (hreach : Relation.ReflTransGen SessionStep freshSession s) :
    s.creations ≤ 1 ∧ (s.hasContext = true → s.creations = 1) := by
  have hinv : s.creations = (if s.hasContext || s.hasPending then 1 else 0) := by
    induction hreach with
    | refl => rfl
    | tail _ hstep ih => exact sessionStep_invariant ih hstep
  constructor
  · rw [hinv]
    split <;> omega
  · intro hc
    rw [hinv, hc]
    simp

/-- Witness for C6: two concurrent first requests — one creates, one
awaits — followed by the creation completing; the resulting state has a
context and exactly one invocation of `createSessionContext`. -/
theorem sessionCreation_exactly_once_witness :
    (⟨true, false, 1⟩ : SessionLifeState).creations ≤ 1 ∧
      ((⟨true, false, 1⟩ : SessionLifeState).hasContext = true →
        (⟨true, false, 1⟩ : SessionLifeState).creations = 1) :=
  sessionCreation_exactly_once ⟨true, false, 1⟩
    (Relation.ReflTransGen.tail
      (Relation.ReflTransGen.tail
        (Relation.ReflTransGen.tail Relation.ReflTransGen.refl
          (SessionStep.resolveCreate freshSession rfl rfl))
        (SessionStep.resolveAwait ⟨false, true, 1⟩ rfl rfl))
      (SessionStep.creationComplete ⟨false, true, 1⟩ rfl))

/-! ## Download tokens (`serveDownload`, `dropDownloadToken`) -/

/-- `DOWNLOAD_TOKEN_TTL` with the default 30-minute configuration. -/
def DOWNLOAD_TOKEN_TTL : ℤ := 1000 * 60 * 30

/-- One entry of `downloadTokenIndex`. -/
structure DownloadTokenEntry where
  sessionId : String
  path : String
  filename : String
  expiresAt : ℤ
  deriving Repr, DecidableEq

/-- Global download-token state: the token index and, for each live
session, its `downloadTokens` set (both JS `Map`/`Set`, modelled as
insertion-ordered lists). -/
structure DownloadState where
  tokenIndex : List (String × DownloadTokenEntry)
  sessionTokens : List (String × List String)
  deriving Repr, DecidableEq

/-- Outcome of `fsp.stat` on disk, supplied as an input oracle. -/
inductive StatOutcome
  | statFile (size : ℕ)
  | statDir
  | enoent
  | otherError
  deriving Repr, DecidableEq

/-- HTTP response of `serveDownload`, reduced to its status class. -/
inductive ServeResponse
  | okFile (path filename : String) (size : ℕ)
  | notFound404
  | serverError500
  deriving Repr, DecidableEq

/-- `dropDownloadToken(token, entry)`: delete the token from the index
and, when the entry carries a live owning session, from that session's
token set. -/
def dropDownloadToken (st : DownloadState) (token : String)
    (entry : Option DownloadTokenEntry) : DownloadState :=
  let idx := st.tokenIndex.filter (fun p => p.1 ≠ token)
  match entry with
  | none => { st with tokenIndex := idx }
  | some e =>
    { tokenIndex := idx
      sessionTokens := st.sessionTokens.map (fun p =>
        if p.1 == e.sessionId then (p.1, p.2.filter (fun t => t ≠ token)) else p) }

/-- `purgeDownloadTokens()`: drop every entry whose expiry has passed. -/
def purgeDownloadTokens (now : ℤ) (st : DownloadState) : DownloadState :=
  st.tokenIndex.foldl (fun acc p =>
    if p.2.expiresAt ≤ now then dropDownloadToken acc p.1 (some p.2) else acc) st

/-- JS `downloadTokenIndex.get(token)`. -/
def tokenLookup (st : DownloadState) (token : String) : Option DownloadTokenEntry :=
  (st.tokenIndex.find? (fun p => p.1 == token)).map (·.2)

/-- `serveDownload` from `server.js` up to the transfer decision: purge,
look the token up (a falsy or unknown token means 404 "Download
expired"), re-stat the file (ENOENT or a non-file invalidates the token
with 404, another stat error invalidates it with 500), and on a live
file extend the expiry and stream it.  The cookie-rebind, `lastAccess`
touch and the post-transfer drop in the `res.download` callback do not
affect the token index before the response is chosen. -/
def serveDownload (now : ℤ) (fileStat : String → StatOutcome) (token : String)
    (st : DownloadState) : ServeResponse × DownloadState :=
  let st1 := purgeDownloadTokens now st
  if token = "" then (.notFound404, st1)
  else
    match tokenLookup st1 token with
    | none => (.notFound404, st1)
    | some entry =>
      match fileStat entry.path with
      | .enoent => (.notFound404, dropDownloadToken st1 token (some entry))
      | .otherError => (.serverError500, dropDownloadToken st1 token (some entry))
      | .statDir => (.notFound404, dropDownloadToken st1 token (some entry))
      | .statFile size =>
        (.okFile entry.path entry.filename size,
          { st1 with tokenIndex := st1.tokenIndex.map (fun p =>
              if p.1 == token then
                (p.1, { p.2 with expiresAt := now + DOWNLOAD_TOKEN_TTL })
              else p) })

lemma dropDownloadToken_not_mem (st : DownloadState) (token : String)
    (entry : Option DownloadTokenEntry) :
    ∀ p ∈ (dropDownloadToken st token entry).tokenIndex, p.1 ≠ token := by
  intro p hp
  unfold dropDownloadToken at hp
  rcases entry with _ | e
  · simpa using (List.mem_filter.1 hp).2
  · simpa using (List.mem_filter.1 hp).2

lemma dropDownloadToken_key_sub (st : DownloadState) (token : String)
    (entry : Option DownloadTokenEntry) :
    ∀ p ∈ (dropDownloadToken st token entry).tokenIndex, p ∈ st.tokenIndex := by
  intro p hp
  unfold dropDownloadToken at hp
  rcases entry with _ | e
  · exact (List.mem_filter.1 hp).1
  · exact (List.mem_filter.1 hp).1

lemma foldPurge_key_absent (now : ℤ) (token : String) :
    ∀ (l : List (String × DownloadTokenEntry)) (acc : DownloadState),
      (∀ p ∈ acc.tokenIndex, p.1 ≠ token) →
      ∀ p ∈ (l.foldl (fun acc q =>
          if q.2.expiresAt ≤ now then dropDownloadToken acc q.1 (some q.2)
          else acc) acc).tokenIndex,
        p.1 ≠ token := by
  intro l
  induction l with
  | nil => intro acc h; exact h
  | cons q qs ih =>
    intro acc h
    simp only [List.foldl_cons]
    by_cases hq : q.2.expiresAt ≤ now
    · rw [if_pos hq]
      exact ih _ (fun p hp => h p (dropDownloadToken_key_sub acc q.1 (some q.2) p hp))
    · rw [if_neg hq]
      exact ih _ h

lemma purge_key_absent {token : String} {st : DownloadState} (now : ℤ)
    (habs : ∀ p ∈ st.tokenIndex, p.1 ≠ token) :
    ∀ p ∈ (purgeDownloadTokens now st).tokenIndex, p.1 ≠ token :=
  foldPurge_key_absent now token st.tokenIndex st habs

lemma tokenLookup_eq_none_of_absent {st : DownloadState} {token : String}
    (habs : ∀ p ∈ st.tokenIndex, p.1 ≠ token) :
    tokenLookup st token = none := by
  unfold tokenLookup
  rw [List.find?_eq_none.2]
  · rfl
  · intro p hp
    simpa using habs p hp

lemma dropDownloadToken_session_not_mem (st : DownloadState) (token : String)
    (e : DownloadTokenEntry) :
    ∀ toks, (e.sessionId, toks)
        ∈ (dropDownloadToken st token (some e)).sessionTokens →
      token ∉ toks := by
  intro toks hmem htoks
  unfold dropDownloadToken at hmem
  simp only at hmem
  obtain ⟨q, hq, hqe⟩ := List.mem_map.1 hmem
  obtain ⟨qs, qt⟩ := q
  by_cases hqs : qs = e.sessionId
  · rw [if_pos (by simpa using hqs)] at hqe
    have hteq : toks = qt.filter (fun t => t ≠ token) := by
      injection hqe with h1 h2
      exact h2.symm
    rw [hteq] at htoks
    simpa using (List.mem_filter.1 htoks).2
  · rw [if_neg (by simpa using hqs)] at hqe
    exact hqs (by injection hqe)

/-- C7: when the backing file of a live download token has vanished
(stat reports file-not-found), redemption answers 404, the token leaves
the index and the owning session's token set, and every later redemption
of the same token also answers 404. -/
theorem serveDownload_vanished_file (now : ℤ) (fileStat : String → StatOutcome)
    (token : String) (st : DownloadState) (entry : DownloadTokenEntry)
    (htok : token ≠ "")
    (hlk : tokenLookup (purgeDownloadTokens now st) token = some entry)
    (hstat : fileStat entry.path = .enoent) :
    (serveDownload now fileStat token st).1 = .notFound404 ∧
    (∀ p ∈ (serveDownload now fileStat token st).2.tokenIndex, p.1 ≠ token) ∧
    (∀ toks, (entry.sessionId, toks)
        ∈ (serveDownload now fileStat token st).2.sessionTokens →
      token ∉ toks) ∧
    (∀ now2 stat2, (serveDownload now2 stat2 token
        (serveDownload now fileStat token st).2).1 = .notFound404) := by
  have hres : serveDownload now fileStat token st
      = (.notFound404, dropDownloadToken (purgeDownloadTokens now st) token
          (some entry)) := by
    unfold serveDownload
    rw [if_neg htok]
    simp only [hlk, hstat]
  rw [hres]
  refine ⟨rfl, dropDownloadToken_not_mem _ _ _,
    dropDownloadToken_session_not_mem _ _ _, ?_⟩
  intro now2 stat2
  have habs : ∀ p ∈ (dropDownloadToken (purgeDownloadTokens now st) token
      (some entry)).tokenIndex, p.1 ≠ token :=
    dropDownloadToken_not_mem _ _ _
  unfold serveDownload
  rw [if_neg htok,
    tokenLookup_eq_none_of_absent (purge_key_absent now2 habs)]

/-- Concrete download state for the C7 witness: one live token owned by
session `s1`. -/
def demoDownloadEntry : DownloadTokenEntry := ⟨"s1", "/dl/file.mp3", "file.mp3", 1000000⟩

/-- Concrete download state holding `demoDownloadEntry` under token
`tok1`. -/
def demoDownloadState : DownloadState :=
  ⟨[("tok1", demoDownloadEntry)], [("s1", ["tok1"])]⟩

/-- Witness for C7: with the backing file gone, redeeming `tok1` yields
404 now and on a later retry with any stat outcome. -/
theorem serveDownload_vanished_file_witness :
    (serveDownload 0 (fun _ => StatOutcome.enoent) "tok1" demoDownloadState).1
        = ServeResponse.notFound404 ∧
    (serveDownload 5 (fun _ => StatOutcome.statFile 3) "tok1"
        (serveDownload 0 (fun _ => StatOutcome.enoent) "tok1"
          demoDownloadState).2).1 = ServeResponse.notFound404 := by
  have h := serveDownload_vanished_file 0 (fun _ => StatOutcome.enoent) "tok1"
    demoDownloadState demoDownloadEntry (by decide) (by decide) rfl
  exact ⟨h.1, h.2.2.2 5 (fun _ => StatOutcome.statFile 3)⟩

/-! ## Session-identifier resolution (`sessionCookieMiddleware`) -/

/-- `sanitizeSessionId(id)`: the value must match
`/^[A-Za-z0-9_-]{10,}$/u`. -/
def sanitizeSessionId (id : Option String) : Option String :=
  match id with
  | some s =>
    if 10 ≤ s.data.length
        && s.data.all (fun c => c.isAlphanum || c == '_' || c == '-') then
      some s
    else none
  | none => none

/-- `buildSessionCookie(id)`: the `Set-Cookie` value with the sliding
max-age and the optional `Secure` attribute. -/
def buildSessionCookie (secure : Bool) (maxAgeMs : ℕ) (id : String) : String :=
  let parts := ["cd_sid=" ++ id, "Path=/", "HttpOnly", "SameSite=Lax",
    "Max-Age=" ++ toString (maxAgeMs / 1000)]
  String.intercalate "; " (if secure then parts ++ ["Secure"] else parts)

/-- Output of the middleware: the resolved identifier and the two echo
channels (renewed cookie and `X-CD-Session` response header). -/
structure ResolvedSession where
  sid : String
  setCookieValue : String
  echoHeader : String
  deriving Repr, DecidableEq

/-- `sessionCookieMiddleware` from `server.js`, with the membership test
`sessionContexts.has(h) || sessionCreationPromises.has(h)` supplied as
the oracle `known` and the minted `nanoid(24)` as `freshId`: sanitize
the cookie value and the `x-cd-session` hint, adopt a known hint even
over a differing cookie, adopt an unknown hint only when no cookie
session exists, fall back to the cookie, else mint; echo the result
through both channels. -/
def sessionCookieMiddleware (known : String → Bool)
    (cookieValue headerHintRaw : Option String) (freshId : String)
    (secure : Bool) (maxAgeMs : ℕ) : ResolvedSession :=
  let cookieSid := sanitizeSessionId cookieValue
  let headerHint := sanitizeSessionId headerHintRaw
  let headerKnown :=
    match headerHint with
    | some h => known h
    | none => false
  let sid1 :=
    match headerHint with
    | none => cookieSid
    | some h =>
      if cookieSid = none ∨ cookieSid ≠ some h then
        if headerKnown then some h
        else if cookieSid = none then some h
        else cookieSid
      else cookieSid
  let sid := sid1.getD freshId
  { sid := sid
    setCookieValue := buildSessionCookie secure maxAgeMs sid
    echoHeader := sid }

/-- C8: identifier resolution precedence — a sanitized hint referencing
a known (live or in-creation) context wins even over a cookie; otherwise
the cookie value is used; an unknown hint is adopted only when no cookie
session exists; with neither, a fresh identifier is minted; and the
resolved identifier is echoed back through both the renewed cookie and
the response header. -/
theorem sessionCookieMiddleware_precedence (known : String → Bool)
    (cookieValue headerHintRaw : Option String) (freshId : String)
    (secure : Bool) (maxAgeMs : ℕ) :
    (∀ h, sanitizeSessionId headerHintRaw = some h → known h = true →
      (sessionCookieMiddleware known cookieValue headerHintRaw freshId
        secure maxAgeMs).sid = h) ∧
    (∀ h c, sanitizeSessionId headerHintRaw = some h → known h = false →
      sanitizeSessionId cookieValue = some c →
      (sessionCookieMiddleware known cookieValue headerHintRaw freshId
        secure maxAgeMs).sid = c) ∧
    (∀ c, sanitizeSessionId headerHintRaw = none →
      sanitizeSessionId cookieValue = some c →
      (sessionCookieMiddleware known cookieValue headerHintRaw freshId
        secure maxAgeMs).sid = c) ∧
    (∀ h, sanitizeSessionId headerHintRaw = some h → known h = false →
      sanitizeSessionId cookieValue = none →
      (sessionCookieMiddleware known cookieValue headerHintRaw freshId
        secure maxAgeMs).sid = h) ∧
    (sanitizeSessionId headerHintRaw = none →
      sanitizeSessionId cookieValue = none →
      (sessionCookieMiddleware known cookieValue headerHintRaw freshId
        secure maxAgeMs).sid = freshId) ∧
    ((sessionCookieMiddleware known cookieValue headerHintRaw freshId
        secure maxAgeMs).setCookieValue
      = buildSessionCookie secure maxAgeMs
          (sessionCookieMiddleware known cookieValue headerHintRaw freshId
            secure maxAgeMs).sid ∧
      (sessionCookieMiddleware known cookieValue headerHintRaw freshId
        secure maxAgeMs).echoHeader
        = (sessionCookieMiddleware known cookieValue headerHintRaw freshId
            secure maxAgeMs).sid) := by
  refine ⟨?_, ?_, ?_, ?_, ?_, rfl, rfl⟩
  · intro h hh hk
    unfold sessionCookieMiddleware
    rw [hh]
    simp only [hk]
    by_cases hc : sanitizeSessionId cookieValue = some h
    · simp [hc]
    · by_cases hcn : sanitizeSessionId cookieValue = none
      · simp [hcn]
      · have : sanitizeSessionId cookieValue = none
            ∨ sanitizeSessionId cookieValue ≠ some h := Or.inr hc
        rw [if_pos this]
        simp
  · intro h c hh hk hc
    unfold sessionCookieMiddleware
    rw [hh, hc]
    simp only [hk]
    by_cases hch : c = h
    · subst hch
      simp
    · have hno : (some c : Option String) = none ∨ (some c : Option String) ≠ some h := by
        right
        simpa using hch
      rw [if_pos hno]
      simp
  · intro c hh hc
    unfold sessionCookieMiddleware
    rw [hh, hc]
    rfl
  · intro h hh hk hc
    unfold sessionCookieMiddleware
    rw [hh, hc]
    simp [hk]
  · intro hh hc
    unfold sessionCookieMiddleware
    rw [hh, hc]
    rfl

/-- Witness for C8: a known hint `hinted-session-1` overrides a present
cookie `cookie-session-1`. -/
theorem sessionCookieMiddleware_precedence_witness :
    (sessionCookieMiddleware (fun s => s == "hinted-session-1")
      (some "cookie-session-1") (some "hinted-session-1") "fresh-id-000"
      false 60000).sid = "hinted-session-1" :=
  (sessionCookieMiddleware_precedence (fun s => s == "hinted-session-1")
    (some "cookie-session-1") (some "hinted-session-1") "fresh-id-000"
    false 60000).1 "hinted-session-1" (by decide) (by decide)

end CdMaker
